import Mathlib

/-!
Verification of the rspass-core credential store and its git-backed
synchronization engine, as a shallow embedding of `src/lib.rs`,
`src/git.rs`, `src/pgp.rs` and `src/config.rs`.

Rust strings are embedded as `List Char`; file contents (ciphertext bytes)
are also embedded as `List Char`.  Fallible operations return `Except` or
the `EResult` type below, whose `panicked` constructor models a Rust
`panic!` / `unwrap` / `expect` abort.
-/

set_option autoImplicit false

/-- Rust `String` / `&str`, embedded as its character list. -/
abbrev Str := List Char

/-- Association list mapping names to values: used for the credential
directory tree (name to ciphertext), the git index, and git trees. -/
abbrev Dict := List (Str × Str)

/-- Linear lookup: first entry with the given key, as in a map keyed by
equality.  Models both filesystem lookup by path and `HashMap::get`. -/
def alGet : Dict → Str → Option Str
  | [], _ => none
  | p :: t, k => if p.1 = k then some p.2 else alGet t k

/-- Insert-or-overwrite: models writing a file at a path, `Index::add_path`,
and `HashMap::insert` (a present key keeps its position, an absent key is
appended). -/
def alPut : Dict → Str → Str → Dict
  | [], k, v => [(k, v)]
  | p :: t, k, v => if p.1 = k then (k, v) :: t else p :: alPut t k v

/-- Delete a key: models `fs::remove_file`, `Index::remove_path` and
`HashMap::remove`. -/
def alDel : Dict → Str → Dict
  | [], _ => []
  | p :: t, k => if p.1 = k then alDel t k else p :: alDel t k

theorem alGet_alPut_self (m : Dict) (k v : Str) : alGet (alPut m k v) k = some v := by
  induction m with
  | nil => simp [alPut, alGet]
  | cons p t ih =>
    by_cases h : p.1 = k
    · simp [alPut, h, alGet]
    · simp [alPut, h, alGet, ih]

theorem alGet_alPut_ne (m : Dict) (k k' v : Str) (h : k ≠ k') :
    alGet (alPut m k v) k' = alGet m k' := by
  induction m with
  | nil => simp [alPut, alGet, h]
  | cons p t ih =>
    by_cases hp : p.1 = k
    · simp only [alPut, if_pos hp, alGet]
      rw [if_neg h, if_neg (show ¬p.1 = k' by rw [hp]; exact h)]
    · simp only [alPut, if_neg hp, alGet]
      rw [ih]

theorem alGet_alDel_self (m : Dict) (k : Str) : alGet (alDel m k) k = none := by
  induction m with
  | nil => simp [alDel, alGet]
  | cons p t ih =>
    by_cases h : p.1 = k
    · simp [alDel, h, ih]
    · simp [alDel, h, alGet, ih]

theorem alGet_alDel_ne (m : Dict) (k k' : Str) (h : k ≠ k') :
    alGet (alDel m k) k' = alGet m k' := by
  induction m with
  | nil => simp [alDel]
  | cons p t ih =>
    by_cases hp : p.1 = k
    · simp only [alDel, if_pos hp, alGet]
      rw [ih, if_neg (show ¬p.1 = k' by rw [hp]; exact h)]
    · simp only [alDel, if_neg hp, alGet]
      rw [ih]

/-! ## The line discipline of credential payloads

`get_credential` and `edit_credential` split the decrypted payload with
Rust's `str::lines`, which cuts at `\n` and treats `\r\n` as a single
terminator, yields no line for the empty string, and does not yield a final
empty line after a trailing terminator. -/

/-- Prepend a character to the first line of an already-split payload;
a character with no following terminator opens a fresh line. -/
def consHead (c : Char) : List (List Char) → List (List Char)
  | [] => [[c]]
  | L :: rest => (c :: L) :: rest

/-- Embedding of Rust `str::lines`: split at `\n`, treating `\r\n` as one
terminator; the empty string has no lines and a trailing terminator does not
produce a final empty line. -/
def linesRust : List Char → List (List Char)
  | [] => []
  | c :: cs =>
    if c = '\n' then [] :: linesRust cs
    else if c = '\r' then
      match cs with
      | [] => [['\r']]
      | x :: cs₂ =>
        if x = '\n' then [] :: linesRust cs₂
        else consHead '\r' (linesRust (x :: cs₂))
    else consHead c (linesRust cs)

theorem linesRust_cons_nl (cs : List Char) : linesRust ('\n' :: cs) = [] :: linesRust cs := by
  rw [linesRust.eq_def]
  simp

theorem linesRust_cons_other (c : Char) (cs : List Char) (hc : c ≠ '\n') (hr : c ≠ '\r') :
    linesRust (c :: cs) = consHead c (linesRust cs) := by
  rw [linesRust.eq_def]
  simp [hc, hr]

theorem linesRust_cons_cr (x : Char) (cs : List Char) (hx : x ≠ '\n') :
    linesRust ('\r' :: x :: cs) = consHead '\r' (linesRust (x :: cs)) := by
  rw [linesRust.eq_def]
  simp [hx]

theorem linesRust_cr_nil : linesRust ['\r'] = [['\r']] := by
  rw [linesRust.eq_def]
  simp

theorem consHead_ne_nil (c : Char) (r : List (List Char)) : consHead c r ≠ [] := by
  cases r <;> simp [consHead]

/-- A payload with at least one character has at least one line. -/
theorem linesRust_ne_nil (s : List Char) (h : s ≠ []) : linesRust s ≠ [] := by
  cases s with
  | nil => exact absurd rfl h
  | cons c cs =>
    by_cases hc : c = '\n'
    · subst hc
      simp [linesRust_cons_nl]
    · by_cases hr : c = '\r'
      · subst hr
        cases cs with
        | nil => simp [linesRust_cr_nil]
        | cons x cs₂ =>
          by_cases hx : x = '\n'
          · subst hx
            rw [linesRust.eq_def]
            simp
          · rw [linesRust_cons_cr x cs₂ hx]
            exact consHead_ne_nil _ _
      · rw [linesRust_cons_other c cs hc hr]
        exact consHead_ne_nil _ _

/-- A chunk with no `\n` and no trailing terminator is a single line. -/
theorem linesRust_single (L : List Char) (hnl : '\n' ∉ L) (hne : L ≠ []) :
    linesRust L = [L] := by
  induction L with
  | nil => exact absurd rfl hne
  | cons c cs ih =>
    have hc : c ≠ '\n' := fun h => hnl (h ▸ List.mem_cons_self c cs)
    have hnl' : '\n' ∉ cs := fun h => hnl (List.mem_cons_of_mem c h)
    by_cases hr : c = '\r'
    · subst hr
      cases cs with
      | nil => exact linesRust_cr_nil
      | cons x cs₂ =>
        have hx : x ≠ '\n' := fun h => hnl' (h ▸ List.mem_cons_self x cs₂)
        rw [linesRust_cons_cr x cs₂ hx, ih hnl' (by simp)]
        simp [consHead]
    · rw [linesRust_cons_other c cs hc hr]
      cases cs with
      | nil => simp [linesRust, consHead]
      | cons x cs₂ =>
        rw [ih hnl' (by simp)]
        simp [consHead]

/-- Splitting at an explicit terminator: a `\n`-free chunk that does not end
in `\r` forms exactly the line before the terminator. -/
theorem linesRust_append_nl (L rest : List Char) (hnl : '\n' ∉ L)
    (hcr : L.getLast? ≠ some '\r') :
    linesRust (L ++ '\n' :: rest) = L :: linesRust rest := by
  induction L with
  | nil => simp [linesRust_cons_nl]
  | cons c cs ih =>
    have hc : c ≠ '\n' := fun h => hnl (h ▸ List.mem_cons_self c cs)
    have hnl' : '\n' ∉ cs := fun h => hnl (List.mem_cons_of_mem c h)
    by_cases hr : c = '\r'
    · subst hr
      cases cs with
      | nil => exact absurd (by simp) hcr
      | cons x cs₂ =>
        have hx : x ≠ '\n' := fun h => hnl' (h ▸ List.mem_cons_self x cs₂)
        have hcr' : (x :: cs₂).getLast? ≠ some '\r' := by
          rwa [List.getLast?_cons_cons] at hcr
        have step : ('\r' :: x :: cs₂) ++ '\n' :: rest = '\r' :: x :: (cs₂ ++ '\n' :: rest) := by
          simp
        rw [step, linesRust_cons_cr x (cs₂ ++ '\n' :: rest) hx]
        have step₂ : x :: (cs₂ ++ '\n' :: rest) = (x :: cs₂) ++ '\n' :: rest := by simp
        rw [step₂, ih hnl' hcr']
        simp [consHead]
    · have step : (c :: cs) ++ '\n' :: rest = c :: (cs ++ '\n' :: rest) := by simp
      rw [step, linesRust_cons_other c (cs ++ '\n' :: rest) hc hr]
      cases cs with
      | nil =>
        rw [List.nil_append, linesRust_cons_nl]
        simp [consHead]
      | cons x cs₂ =>
        have hcr' : (x :: cs₂).getLast? ≠ some '\r' := by
          rwa [List.getLast?_cons_cons] at hcr
        rw [ih hnl' hcr']
        simp [consHead]

/-! ## Error model (`ErrorKind` / `Error` of `lib.rs`)

`lib.rs` declares the first eleven kinds; `git.rs` additionally references
`RemoteError`, `FetchError` and `PushError`, and `config.rs` references
`ConfigAlreadySet`. -/

inductive ErrorKind where
  | InitializationError
  | PermissionDenied
  | NotInitialized
  | BadConfig
  | InsertionError
  | EditionError
  | RemovalError
  | AlreadyExists
  | EncryptationError
  | DecryptationError
  | NotFound
  | RemoteError
  | FetchError
  | PushError
  | ConfigAlreadySet
  deriving DecidableEq, Repr

structure Error where
  kind : ErrorKind
  message : Str
  deriving DecidableEq, Repr

/-- Result of a library operation: `ok`, a returned `Error`, or a Rust
`panic!` / `unwrap` / `expect` abort. -/
inductive EResult (α : Type) where
  | ok : α → EResult α
  | err : Error → EResult α
  | panicked : EResult α
  deriving DecidableEq, Repr

/-! ## The PGP/RSA envelope (`pgp.rs`)

`lib.rs` imports `pgp::{decrypt, recover_private_key, recover_rsa_pub_key}`
but the `pgp.rs` snapshot under `src/` only contains `generate_key`,
`recover_pub_key`, `recover_rsa_pub_key` and `encrypt`; `decrypt` and
`recover_private_key` are absent, and `encrypt`/`decrypt` themselves
delegate to the external `rsa` crate, which the spec places out of scope.
The envelope is therefore modelled from the spec: encryption seals a
payload under the persisted public key into raw ciphertext bytes with no
extra framing, and decryption requires the matching private key and the
correct passphrase, failing with `DecryptationError` otherwise and never
returning garbled output as if valid. -/

/-- The key material persisted in the config directory (`rspass.pub`,
`rspass.key`, `rspass.pem`): an abstract key identity plus the passphrase
locking the private key. -/
structure KeyPair where
  keyId : Char
  passphrase : Str
  deriving DecidableEq, Repr

/-- Modelled from the spec: RSA public-key sealing (`pgp::encrypt`).  The
ciphertext is raw bytes with no framing; it is modelled as the key identity
followed by the payload, so that distinct payloads or keys give distinct
ciphertexts and the length varies with the payload. -/
def encrypt (value : Str) (pubKey : Char) : Str :=
  pubKey :: value

/-- Modelled from the spec: `pgp::decrypt` is absent from the sources
(`lib.rs` imports it).  Per the spec it unlocks the private key with the
passphrase and unseals; a wrong passphrase, mismatched key or corrupted
ciphertext fails with `DecryptationError`. -/
def decrypt (buffer : Str) (password : Str) (privateKey : KeyPair) : Except Error Str :=
  match buffer with
  | [] => .error ⟨.DecryptationError, "failed to decrypt credential".data⟩
  | kid :: rest =>
    if kid = privateKey.keyId ∧ password = privateKey.passphrase then .ok rest
    else .error ⟨.DecryptationError, "failed to decrypt credential".data⟩

/-! ## Git ledger (`git.rs`) -/

/-- A commit created by `commit_changes`: a message, the parent tip (none
for a root commit) and the tree built from the index. -/
structure Commit where
  message : Str
  parent : Option Nat
  tree : Dict
  deriving DecidableEq, Repr

/-- The repository ledger: the list of commits ever created (a commit's
identity is its position), the branch tip `HEAD` resolves to, and the
on-disk index. -/
structure Repo where
  log : List Commit
  head : Option Nat
  index : Dict
  deriving DecidableEq, Repr

/-- `Index::add_path` for each addition: reads the named file from the
working tree into the index; a missing file hits the
`.expect("failed to add file")` and aborts, modelled as `none`. -/
def stageAdditions (index : Dict) (worktree : Dict) : List Str → Option Dict
  | [] => some index
  | n :: ns =>
    match alGet worktree n with
    | some bytes => stageAdditions (alPut index n bytes) worktree ns
    | none => none

/-- Embedding of `git::commit_changes`: stage each addition and removal into
the index, write the tree from the index, and create one commit whose parent
is the current branch tip (no parent when the history is empty), advancing
`HEAD` to it. -/
def commit_changes (repo : Repo) (worktree : Dict) (additions removals : Option (List Str))
    (message : Str) : Option Repo :=
  match stageAdditions repo.index worktree (additions.getD []) with
  | none => none
  | some staged =>
    let staged := (removals.getD []).foldl alDel staged
    some { log := repo.log ++ [⟨message, repo.head, staged⟩],
           head := some repo.log.length,
           index := staged }

theorem commit_changes_ok (repo : Repo) (worktree : Dict) (additions removals : Option (List Str))
    (message : Str) (repo' : Repo) (h : commit_changes repo worktree additions removals message = some repo') :
    ∃ ix, repo' = { log := repo.log ++ [⟨message, repo.head, ix⟩],
                    head := some repo.log.length, index := ix } := by
  unfold commit_changes at h
  cases hs : stageAdditions repo.index worktree (additions.getD []) with
  | none => rw [hs] at h; exact absurd h (by simp)
  | some staged =>
    rw [hs] at h
    simp only [Option.some.injEq] at h
    exact ⟨(removals.getD []).foldl alDel staged, h.symm⟩

/-! ## Credential store state (`lib.rs`) -/

/-- The observable state `lib.rs` operates on: the key artifacts of the
config directory (none when `rspass.pem` / `rspass.key` are missing), the
credential files of the data directory keyed by their relative name, and
the git repository.  Directory structure is not modelled separately: a
credential's on-disk path is exactly its name. -/
structure Store where
  config : Option KeyPair
  files : Dict
  repo : Repo
  deriving DecidableEq, Repr

/-- Embedding of `pgp::recover_rsa_pub_key`: reads `rspass.pem`, failing
`NotInitialized` when the config artifacts are missing. -/
def recover_rsa_pub_key (s : Store) : Except Error Char :=
  match s.config with
  | none => .error ⟨.NotInitialized, "Public RSA key not found".data⟩
  | some kp => .ok kp.keyId

/-- Modelled from the spec: `pgp::recover_private_key` is absent from the
sources (`lib.rs` imports it); like `recover_rsa_pub_key` it reads the key
artifact (`rspass.key`), failing `NotInitialized` when missing. -/
def recover_private_key (s : Store) : Except Error KeyPair :=
  match s.config with
  | none => .error ⟨.NotInitialized, "Private key not found".data⟩
  | some kp => .ok kp

/-- The metadata lines appended to the secret, one `\n{key}={value}` per
pair, exactly as pushed by `insert_credential` and `edit_credential`. -/
def metaStr : List (Str × Str) → Str
  | [] => []
  | (k, v) :: t => '\n' :: ((k ++ '=' :: v) ++ metaStr t)

/-- Lowercase hexadecimal digit. -/
def hexDigit (n : Nat) : Char :=
  if n < 10 then Char.ofNat (48 + n) else Char.ofNat (87 + n)

/-- Minimal lowercase hexadecimal rendering of a byte value, as inside the
`\u` escapes Rust's Debug formatting emits for ASCII control characters. -/
def hexByte (n : Nat) : List Char :=
  if n < 16 then [hexDigit n] else [hexDigit (n / 16), hexDigit (n % 16)]

/-- One step of Rust's `{:?}` (Debug) formatting of a string, for the
ASCII range: the named escapes `\"`, `\\`, `\n`, `\r`, `\t`, NUL as `\0`,
and every other ASCII control character (code below 32, or 127) as a
braced `\u` escape in lowercase hex.  Characters of code 128 and above,
whose escaping depends on the Unicode printability and grapheme-extension
tables, are not modelled and are excluded by `plainStr` wherever the
formatting is relied upon. -/
def escapeDebugChar (c : Char) : List Char :=
  if c = '"' then ['\\', '"']
  else if c = '\\' then ['\\', '\\']
  else if c = '\n' then ['\\', 'n']
  else if c = '\r' then ['\\', 'r']
  else if c = '\t' then ['\\', 't']
  else if c.toNat = 0 then ['\\', '0']
  else if c.toNat < 32 ∨ c.toNat = 127 then
    '\\' :: 'u' :: '\x7b' :: (hexByte c.toNat ++ ['\x7d'])
  else [c]

/-- Rust `format!("{:?}", name)` for a string: the escaped text between
double quotes. -/
def rustDebug (s : Str) : Str :=
  '"' :: ((s.map escapeDebugChar).flatten ++ ['"'])

/-- Characters that `{:?}` prints verbatim: printable ASCII other than the
quote and the backslash.  Every other ASCII character is escaped by Rust's
Debug formatting (NUL, control characters, DEL), and characters of code
128 and above may be escaped depending on Unicode tables the model does
not carry, so all of them are excluded here. -/
def plainStr (s : Str) : Prop :=
  ∀ c ∈ s, 32 ≤ c.toNat ∧ c.toNat < 127 ∧ c ≠ '"' ∧ c ≠ '\\'

instance (s : Str) : Decidable (plainStr s) := by
  unfold plainStr
  infer_instance

theorem escapeDebug_plain (s : Str) (h : plainStr s) :
    (s.map escapeDebugChar).flatten = s := by
  induction s with
  | nil => simp
  | cons c t ih =>
    obtain ⟨h32, h127, hq, hb⟩ := h c (List.mem_cons_self c t)
    have ht : plainStr t := fun x hx => h x (List.mem_cons_of_mem c hx)
    have hn : c ≠ '\n' := fun hcc => absurd (hcc ▸ h32) (by decide)
    have hr : c ≠ '\r' := fun hcc => absurd (hcc ▸ h32) (by decide)
    have htb : c ≠ '\t' := fun hcc => absurd (hcc ▸ h32) (by decide)
    have h0 : c.toNat ≠ 0 := by omega
    have hu : ¬(c.toNat < 32 ∨ c.toNat = 127) := by omega
    simp only [List.map_cons, List.flatten_cons, ih ht]
    simp [escapeDebugChar, hq, hb, hn, hr, htb, h0, hu]

theorem rustDebug_plain (s : Str) (h : plainStr s) : rustDebug s = '"' :: (s ++ ['"']) := by
  unfold rustDebug
  rw [escapeDebug_plain s h]

/-- Common tail of every mutating operation: `commit_changes` on the
updated working tree; a `None` from the ledger models the `unwrap`/`expect`
aborts inside `commit_changes`. -/
def commitStep (s : Store) (files : Dict) (additions removals : Option (List Str))
    (message : Str) : Store × EResult Unit :=
  match commit_changes s.repo files additions removals message with
  | some repo => ({ s with files := files, repo := repo }, .ok ())
  | none => ({ s with files := files }, .panicked)

/-- Embedding of `insert_credential`: recover the public key, fail
`AlreadyExists` when the target file exists (`File::create_new`), serialize
the payload as the secret followed by the metadata lines, encrypt, write the
file and commit `add {:?}`.  `open_repository` and `create_dir_all` are
modelled as succeeding; parent directories are not modelled. -/
def insert_credential (s : Store) (name password : Str)
    (metadata : Option (List (Str × Str))) : Store × EResult Unit :=
  match recover_rsa_pub_key s with
  | .error e => (s, .err e)
  | .ok pub_key =>
    match alGet s.files name with
    | some _ => (s, .err ⟨.AlreadyExists, "A credential already exists with this name".data⟩)
    | none =>
      let file_data := password ++ metaStr (metadata.getD [])
      let files := alPut s.files name (encrypt file_data pub_key)
      commitStep s files (some [name]) none ("add ".data ++ rustDebug name)

/-- Embedding of `get_credential`: recover the private key, read the
ciphertext (`NotFound` when missing), decrypt, and return the full payload
or only its first line; `credentials.lines().next().unwrap()` on a payload
with no lines is the modelled panic. -/
def get_credential (s : Store) (name password : Str) (full : Bool) : EResult Str :=
  match recover_private_key s with
  | .error e => .err e
  | .ok private_key =>
    match alGet s.files name with
    | none => .err ⟨.NotFound, "no credential found".data⟩
    | some buffer =>
      match decrypt buffer password private_key with
      | .error e => .err e
      | .ok credentials =>
        if full then .ok credentials
        else
          match (linesRust credentials).head? with
          | some line => .ok line
          | none => .panicked

/-- Embedding of `line.splitn(2, '=')` as used by `edit_credential`'s
parser: the text before the first `=` and everything after it, or `none`
for a line with no `=` (filtered out by the `filter_map`). -/
def eqSplit : Str → Option (Str × Str)
  | [] => none
  | c :: cs =>
    if c = '=' then some ([], cs)
    else
      match eqSplit cs with
      | some (k, v) => some (c :: k, v)
      | none => none

/-- The pure core of `edit_credential` between decryption and
re-serialization: choose the secret (the given one, or the payload's first
line, whose `unwrap` panics, modelled `none`, when the payload has no
lines), collect every line containing `=` into the metadata map with later
duplicate keys overwriting earlier ones, and apply the requested changes
(`Some` value inserts/overwrites, `None` deletes). -/
def edit_core (credential : Str) (password : Option Str)
    (metadata : Option (List (Str × Option Str))) : Option (Str × List (Str × Str)) :=
  match (match password with
         | some pass => some pass
         | none => (linesRust credential).head?) with
  | none => none
  | some secret =>
    let data := (linesRust credential).foldl
      (fun m line =>
        match eqSplit line with
        | some (k, v) => alPut m k v
        | none => m) []
    let data := match metadata with
      | some ms => ms.foldl
          (fun d item =>
            match item.2 with
            | some inner_value => alPut d item.1 inner_value
            | none => alDel d item.1) data
      | none => data
    some (secret, data)

/-- Embedding of `edit_credential`: open and read the ciphertext
(`NotFound` when missing), recover both keys, decrypt, run the pure core
(secret choice, metadata map, changes), re-serialize as secret plus
metadata lines, re-encrypt, and write the new ciphertext from offset 0
without truncating — the old content's bytes beyond the new length remain
in the file — then commit `update {:?}`. -/
def edit_credential (s : Store) (name gpg_password : Str) (password : Option Str)
    (metadata : Option (List (Str × Option Str))) : Store × EResult Unit :=
  match alGet s.files name with
  | none => (s, .err ⟨.NotFound, "no credential found".data⟩)
  | some buffer =>
    match recover_rsa_pub_key s with
    | .error e => (s, .err e)
    | .ok pub_key =>
      match recover_private_key s with
      | .error e => (s, .err e)
      | .ok private_key =>
        match decrypt buffer gpg_password private_key with
        | .error e => (s, .err e)
        | .ok credential =>
          match edit_core credential password metadata with
          | none => (s, .panicked)
          | some (secret, data) =>
            let new_credential := secret ++ metaStr data
            let cipher := encrypt new_credential pub_key
            let written := cipher ++ buffer.drop cipher.length
            commitStep s (alPut s.files name written) (some [name]) none
              ("update ".data ++ rustDebug name)

/-- Embedding of `remove_credential`: delete the file (`NotFound` when
missing) and commit `remove {:?}`. -/
def remove_credential (s : Store) (name : Str) : Store × EResult Unit :=
  match alGet s.files name with
  | none => (s, .err ⟨.NotFound, "credential not found".data⟩)
  | some _ =>
    commitStep s (alDel s.files name) none (some [name])
      ("remove ".data ++ rustDebug name)

/-- Embedding of `move_credential`: rename target to destination
(`NotFound` when the target is missing; `fs::rename` replaces an existing
destination), stage the destination as an addition and the target as a
removal, and commit `move {} to {}`. -/
def move_credential (s : Store) (target destination : Str) : Store × EResult Unit :=
  match alGet s.files target with
  | none => (s, .err ⟨.NotFound, "credential not found".data⟩)
  | some bytes =>
    commitStep s (alPut (alDel s.files target) destination bytes)
      (some [destination]) (some [target])
      ("move ".data ++ (target ++ (" to ".data ++ destination)))

/-- The four mutating store operations, for properties quantified over all
of them. -/
inductive StoreOp where
  | insertOp (name password : Str) (metadata : Option (List (Str × Str)))
  | editOp (name gpg_password : Str) (password : Option Str)
      (metadata : Option (List (Str × Option Str)))
  | removeOp (name : Str)
  | moveOp (target destination : Str)

/-- Dispatch a mutating operation. -/
def runOp (s : Store) : StoreOp → Store × EResult Unit
  | .insertOp n p m => insert_credential s n p m
  | .editOp n g p m => edit_credential s n g p m
  | .removeOp n => remove_credential s n
  | .moveOp t d => move_credential s t d

/-- The documented commit-message template of each operation. -/
def opTemplate : StoreOp → Str
  | .insertOp n _ _ => "add \"".data ++ (n ++ ['"'])
  | .editOp n _ _ _ => "update \"".data ++ (n ++ ['"'])
  | .removeOp n => "remove \"".data ++ (n ++ ['"'])
  | .moveOp t d => "move ".data ++ (t ++ (" to ".data ++ d))

/-- The names an operation interpolates with `{:?}` are plain (no escaping
takes place); `move` uses plain `{}` interpolation, so any names do. -/
def opNamesPlain : StoreOp → Prop
  | .insertOp n _ _ => plainStr n
  | .editOp n _ _ _ => plainStr n
  | .removeOp n => plainStr n
  | .moveOp _ _ => True

instance (op : StoreOp) : Decidable (opNamesPlain op) := by
  cases op <;> simp only [opNamesPlain] <;> infer_instance

/-! ## Synchronization (`fetch_from_remote` of `git.rs`)

The commit graph is modelled positionally: commit `i` lists its parents as
indices.  In a well-formed graph every parent index is smaller than its
child's, which the ancestor walk enforces, mirroring topological order of
object creation. -/

/-- A commit node of the object graph shared with the remote: parent
indices and the tree the commit snapshots. -/
structure SyncCommit where
  parents : List Nat
  tree : Dict
  deriving DecidableEq, Repr

/-- Parents of commit `b`, empty for an unknown id. -/
def parentsOf (g : List SyncCommit) (b : Nat) : List Nat :=
  ((g.get? b).map SyncCommit.parents).getD []

/-- Fuel-bounded reachability through parent edges; only edges that
decrease the index are followed, so fuel `b` always suffices. -/
def isAncestorFuel (g : List SyncCommit) : Nat → Nat → Nat → Bool
  | 0, a, b => a == b
  | fuel + 1, a, b =>
    a == b || (parentsOf g b).any fun p => decide (p < b) && isAncestorFuel g fuel a p

/-- `a` is an ancestor of (or equal to) `b` in the commit graph. -/
def isAncestor (g : List SyncCommit) (a b : Nat) : Bool :=
  isAncestorFuel g b a b

theorem isAncestorFuel_le (g : List SyncCommit) (fuel a b : Nat)
    (h : isAncestorFuel g fuel a b = true) : a ≤ b := by
  induction fuel generalizing b with
  | zero => exact Nat.le_of_eq (by simpa [isAncestorFuel] using h)
  | succ fuel ih =>
    simp only [isAncestorFuel, Bool.or_eq_true, List.any_eq_true, Bool.and_eq_true,
      decide_eq_true_eq] at h
    rcases h with h | ⟨p, _, hlt, hrec⟩
    · exact Nat.le_of_eq (by simpa using h)
    · exact Nat.le_of_lt (Nat.lt_of_le_of_lt (ih p hrec) hlt)

theorem isAncestor_le (g : List SyncCommit) (a b : Nat) (h : isAncestor g a b = true) :
    a ≤ b :=
  isAncestorFuel_le g b a b h

theorem isAncestor_refl (g : List SyncCommit) (a : Nat) : isAncestor g a a = true := by
  cases a <;> simp [isAncestor, isAncestorFuel]

/-- The outcome of `git2`'s `merge_analysis` for one fetched head:
up-to-date when the remote commit is already in the local history,
fast-forward when the local tip is an ancestor of the remote one, and a
normal merge otherwise. -/
inductive MergeAnalysis where
  | upToDate
  | fastForward
  | normal
  deriving DecidableEq, Repr

/-- Models `repo.merge_analysis(&[&annotated_commit])`. -/
def merge_analysis (g : List SyncCommit) (local_oid remote_oid : Nat) : MergeAnalysis :=
  if isAncestor g remote_oid local_oid then .upToDate
  else if isAncestor g local_oid remote_oid then .fastForward
  else .normal

/-- The tree snapshotted by commit `i`. -/
def treeOf (g : List SyncCommit) (i : Nat) : Dict :=
  ((g.get? i).map SyncCommit.tree).getD []

/-- Repository state observed by `fetch_from_remote`: the shared object
graph, the tip of the local `master` branch, the `origin/master`
remote-tracking reference, the reference `HEAD` points at, the working
tree, whether an `origin` remote is registered, and a record of a
delegated `repo.merge` call (which writes the merged state into the index
and working tree and is otherwise external). -/
structure SyncRepo where
  graph : List SyncCommit
  localMaster : Nat
  remoteTracking : Option Nat
  headTarget : Str
  worktree : Dict
  hasOrigin : Bool
  mergedWith : Option Nat
  deriving DecidableEq, Repr

/-- Embedding of `git::fetch_from_remote`: find the `origin` remote
(`RemoteError` when absent), fetch `master` (updating the remote-tracking
reference to the remote tip; transport failures are not modelled), then
compare tips: equal tips do nothing; a fast-forward analysis moves the
local branch reference to the remote tip, points `HEAD` at
`refs/heads/master` and force-checkouts the tree of that commit; a normal
analysis delegates to `repo.merge`; an up-to-date analysis only prints.
Every path ends in `Ok(())`. -/
def fetch_from_remote (s : SyncRepo) (remoteTip : Nat) (_username _token : Str) :
    SyncRepo × Except Error Unit :=
  if s.hasOrigin = false then
    (s, .error ⟨.RemoteError, "failed to find remote".data⟩)
  else
    let s₁ := { s with remoteTracking := some remoteTip }
    let local_oid := s₁.localMaster
    let remote_oid := remoteTip
    if local_oid = remote_oid then (s₁, .ok ())
    else
      match merge_analysis s₁.graph local_oid remote_oid with
      | .fastForward =>
        ({ s₁ with localMaster := remote_oid,
                   headTarget := "refs/heads/master".data,
                   worktree := treeOf s₁.graph remote_oid }, .ok ())
      | .normal => ({ s₁ with mergedWith := some remote_oid }, .ok ())
      | .upToDate => (s₁, .ok ())

/-! ## Helper lemmas on operation plumbing -/

theorem commitStep_ok (s : Store) (files : Dict) (a r : Option (List Str)) (msg : Str)
    (s' : Store) (h : commitStep s files a r msg = (s', .ok ())) :
    ∃ c, s'.repo.log = s.repo.log ++ [c] ∧ c.parent = s.repo.head ∧ c.message = msg ∧
      s'.repo.head = some s.repo.log.length := by
  unfold commitStep at h
  cases hc : commit_changes s.repo files a r msg with
  | none => rw [hc] at h; simp at h
  | some repo' =>
    rw [hc] at h
    obtain ⟨ix, hix⟩ := commit_changes_ok _ _ _ _ _ _ hc
    have hs : s' = { s with files := files, repo := repo' } := by
      have := congrArg Prod.fst h
      simpa using this.symm
    subst hs
    refine ⟨⟨msg, s.repo.head, ix⟩, ?_, rfl, rfl, ?_⟩
    · simp [hix]
    · simp [hix]

theorem insert_ok_commit (s s' : Store) (n p : Str) (md : Option (List (Str × Str)))
    (h : insert_credential s n p md = (s', .ok ())) :
    ∃ c, s'.repo.log = s.repo.log ++ [c] ∧ c.parent = s.repo.head ∧
      c.message = "add ".data ++ rustDebug n ∧ s'.repo.head = some s.repo.log.length := by
  unfold insert_credential at h
  cases hk : recover_rsa_pub_key s with
  | error e => simp only [hk] at h; simp at h
  | ok kid =>
    simp only [hk] at h
    cases hg : alGet s.files n with
    | some old => simp only [hg] at h; simp at h
    | none =>
      simp only [hg] at h
      exact commitStep_ok _ _ _ _ _ _ h

theorem edit_ok_commit (s s' : Store) (n g : Str) (p : Option Str)
    (md : Option (List (Str × Option Str)))
    (h : edit_credential s n g p md = (s', .ok ())) :
    ∃ c, s'.repo.log = s.repo.log ++ [c] ∧ c.parent = s.repo.head ∧
      c.message = "update ".data ++ rustDebug n ∧ s'.repo.head = some s.repo.log.length := by
  unfold edit_credential at h
  cases h1 : alGet s.files n with
  | none => simp only [h1] at h; simp at h
  | some buffer =>
    simp only [h1] at h
    cases h2 : recover_rsa_pub_key s with
    | error e => simp only [h2] at h; simp at h
    | ok kid =>
      simp only [h2] at h
      cases h3 : recover_private_key s with
      | error e => simp only [h3] at h; simp at h
      | ok pk =>
        simp only [h3] at h
        cases h4 : decrypt buffer g pk with
        | error e => simp only [h4] at h; simp at h
        | ok cred =>
          simp only [h4] at h
          cases h5 : edit_core cred p md with
          | none => simp only [h5] at h; simp at h
          | some r =>
            obtain ⟨sec, d⟩ := r
            simp only [h5] at h
            exact commitStep_ok _ _ _ _ _ _ h

theorem remove_ok_commit (s s' : Store) (n : Str)
    (h : remove_credential s n = (s', .ok ())) :
    ∃ c, s'.repo.log = s.repo.log ++ [c] ∧ c.parent = s.repo.head ∧
      c.message = "remove ".data ++ rustDebug n ∧ s'.repo.head = some s.repo.log.length := by
  unfold remove_credential at h
  cases h1 : alGet s.files n with
  | none => simp only [h1] at h; simp at h
  | some b =>
    simp only [h1] at h
    exact commitStep_ok _ _ _ _ _ _ h

theorem move_ok_commit (s s' : Store) (t d : Str)
    (h : move_credential s t d = (s', .ok ())) :
    ∃ c, s'.repo.log = s.repo.log ++ [c] ∧ c.parent = s.repo.head ∧
      c.message = "move ".data ++ (t ++ (" to ".data ++ d)) ∧
      s'.repo.head = some s.repo.log.length := by
  unfold move_credential at h
  cases h1 : alGet s.files t with
  | none => simp only [h1] at h; simp at h
  | some b =>
    simp only [h1] at h
    exact commitStep_ok _ _ _ _ _ _ h

theorem insert_success (s : Store) (kp : KeyPair) (name password : Str)
    (md : Option (List (Str × Str)))
    (hconf : s.config = some kp) (hnew : alGet s.files name = none) :
    insert_credential s name password md =
      ({ s with
          files := alPut s.files name (encrypt (password ++ metaStr (md.getD [])) kp.keyId),
          repo := { log := s.repo.log ++
                      [⟨"add ".data ++ rustDebug name, s.repo.head,
                        alPut s.repo.index name
                          (encrypt (password ++ metaStr (md.getD [])) kp.keyId)⟩],
                    head := some s.repo.log.length,
                    index := alPut s.repo.index name
                      (encrypt (password ++ metaStr (md.getD [])) kp.keyId) } },
       .ok ()) := by
  have hstage : stageAdditions s.repo.index
      (alPut s.files name (encrypt (password ++ metaStr (md.getD [])) kp.keyId)) [name] =
      some (alPut s.repo.index name (encrypt (password ++ metaStr (md.getD [])) kp.keyId)) := by
    simp [stageAdditions, alGet_alPut_self]
  simp only [insert_credential, recover_rsa_pub_key, hconf, hnew, commitStep, commit_changes,
    Option.getD_some, Option.getD_none]
  rw [hstage]
  simp only [List.foldl_nil]

/-! ## Claim C3 -/

/-- C3: for every name whose credential file already exists, `insert`
fails with `AlreadyExists` and the store — file contents and commit
history — is exactly what it was before the call. -/
theorem insert_duplicate_already_exists (s : Store) (kp : KeyPair) (name password old : Str)
    (md : Option (List (Str × Str)))
    (hconf : s.config = some kp) (hold : alGet s.files name = some old) :
    insert_credential s name password md =
      (s, .err ⟨.AlreadyExists, "A credential already exists with this name".data⟩) := by
  simp only [insert_credential, recover_rsa_pub_key, hconf, hold]

theorem insert_duplicate_already_exists_witness :
    (⟨some ⟨'k', ['p']⟩, [(['n'], ['k', 's'])], ⟨[], none, []⟩⟩ : Store).config =
      some ⟨'k', ['p']⟩ ∧
    alGet (⟨some ⟨'k', ['p']⟩, [(['n'], ['k', 's'])], ⟨[], none, []⟩⟩ : Store).files ['n'] =
      some ['k', 's'] ∧
    insert_credential ⟨some ⟨'k', ['p']⟩, [(['n'], ['k', 's'])], ⟨[], none, []⟩⟩ ['n'] ['x'] none =
      (⟨some ⟨'k', ['p']⟩, [(['n'], ['k', 's'])], ⟨[], none, []⟩⟩,
       .err ⟨.AlreadyExists, "A credential already exists with this name".data⟩) :=
  ⟨rfl, rfl,
    insert_duplicate_already_exists _ ⟨'k', ['p']⟩ ['n'] ['x'] ['k', 's'] none rfl rfl⟩

/-! ## Claim C6 -/

/-- C6: every successful `insert`/`edit`/`remove`/`move` appends exactly one
commit whose parent is the branch tip before the operation (none on an
empty history) and whose message is the documented template — for names
that `{:?}` prints without escapes. -/
theorem mutation_single_commit (s s' : Store) (op : StoreOp)
    (hplain : opNamesPlain op) (h : runOp s op = (s', .ok ())) :
    ∃ c, s'.repo.log = s.repo.log ++ [c] ∧ c.parent = s.repo.head ∧
      c.message = opTemplate op ∧ s'.repo.head = some s.repo.log.length := by
  cases op with
  | insertOp n p md =>
    obtain ⟨c, h1, h2, h3, h4⟩ := insert_ok_commit s s' n p md h
    refine ⟨c, h1, h2, ?_, h4⟩
    rw [h3, rustDebug_plain n hplain]
    rfl
  | editOp n g p md =>
    obtain ⟨c, h1, h2, h3, h4⟩ := edit_ok_commit s s' n g p md h
    refine ⟨c, h1, h2, ?_, h4⟩
    rw [h3, rustDebug_plain n hplain]
    rfl
  | removeOp n =>
    obtain ⟨c, h1, h2, h3, h4⟩ := remove_ok_commit s s' n h
    refine ⟨c, h1, h2, ?_, h4⟩
    rw [h3, rustDebug_plain n hplain]
    rfl
  | moveOp t d =>
    obtain ⟨c, h1, h2, h3, h4⟩ := move_ok_commit s s' t d h
    exact ⟨c, h1, h2, h3, h4⟩

theorem mutation_single_commit_witness :
    opNamesPlain (.removeOp ['n']) ∧
    runOp ⟨some ⟨'k', ['p']⟩, [(['n'], ['k', 's'])], ⟨[], none, []⟩⟩ (.removeOp ['n']) =
      ((runOp ⟨some ⟨'k', ['p']⟩, [(['n'], ['k', 's'])], ⟨[], none, []⟩⟩ (.removeOp ['n'])).1,
       .ok ()) ∧
    ∃ c, (runOp ⟨some ⟨'k', ['p']⟩, [(['n'], ['k', 's'])], ⟨[], none, []⟩⟩
            (.removeOp ['n'])).1.repo.log =
        (⟨some ⟨'k', ['p']⟩, [(['n'], ['k', 's'])], ⟨[], none, []⟩⟩ : Store).repo.log ++ [c] ∧
      c.parent = (⟨some ⟨'k', ['p']⟩, [(['n'], ['k', 's'])], ⟨[], none, []⟩⟩ : Store).repo.head ∧
      c.message = opTemplate (.removeOp ['n']) ∧
      (runOp ⟨some ⟨'k', ['p']⟩, [(['n'], ['k', 's'])], ⟨[], none, []⟩⟩
          (.removeOp ['n'])).1.repo.head =
        some (⟨some ⟨'k', ['p']⟩, [(['n'], ['k', 's'])], ⟨[], none, []⟩⟩ : Store).repo.log.length :=
  ⟨by decide, rfl,
    mutation_single_commit _ _ (.removeOp ['n']) (by decide) rfl⟩

/-! ## Claim C2 -/

/-- C2: for a stored credential whose decrypted payload `P` has a first
line (`P` non-empty) and the correct passphrase, `get(full = false)`
returns exactly that first line, whatever metadata lines follow it. -/
theorem get_first_line (s : Store) (kp : KeyPair) (name P : Str)
    (hconf : s.config = some kp)
    (hfile : alGet s.files name = some (encrypt P kp.keyId))
    (hne : P ≠ []) :
    get_credential s name kp.passphrase false = .ok ((linesRust P).headI) := by
  obtain ⟨l, ls, hl⟩ : ∃ l ls, linesRust P = l :: ls := by
    cases hcase : linesRust P with
    | nil => exact absurd hcase (linesRust_ne_nil P hne)
    | cons a b => exact ⟨a, b, rfl⟩
  simp only [get_credential, recover_private_key, hconf, hfile, decrypt, encrypt,
    and_self, if_true, hl]
  simp

theorem get_first_line_witness :
    (⟨some ⟨'k', ['p']⟩, [(['n'], 'k' :: ('s' :: '\n' :: 'a' :: '=' :: ['b']))],
        ⟨[], none, []⟩⟩ : Store).config = some ⟨'k', ['p']⟩ ∧
    alGet (⟨some ⟨'k', ['p']⟩, [(['n'], 'k' :: ('s' :: '\n' :: 'a' :: '=' :: ['b']))],
        ⟨[], none, []⟩⟩ : Store).files ['n'] =
      some (encrypt ('s' :: '\n' :: 'a' :: '=' :: ['b']) 'k') ∧
    ('s' :: '\n' :: 'a' :: '=' :: ['b'] : Str) ≠ [] ∧
    get_credential ⟨some ⟨'k', ['p']⟩, [(['n'], 'k' :: ('s' :: '\n' :: 'a' :: '=' :: ['b']))],
        ⟨[], none, []⟩⟩ ['n'] ['p'] false =
      .ok ((linesRust ('s' :: '\n' :: 'a' :: '=' :: ['b'])).headI) :=
  ⟨rfl, rfl, by decide,
    get_first_line _ ⟨'k', ['p']⟩ ['n'] _ rfl rfl (by decide)⟩

/-! ## Claim C10 -/

/-- C10 (amended): `insert` permits storing the empty payload (empty
secret, no metadata), and on such a credential `get(full = false)` hits the
`unwrap` of the first-line lookup and panics; the panic happens exactly
when the decrypted payload is empty. -/
theorem get_panic_iff_empty (s : Store) (kp : KeyPair) (name : Str)
    (hconf : s.config = some kp) :
    (alGet s.files name = none →
      (insert_credential s name [] none).2 = .ok () ∧
      alGet (insert_credential s name [] none).1.files name = some (encrypt [] kp.keyId)) ∧
    (∀ P, alGet s.files name = some (encrypt P kp.keyId) →
      (get_credential s name kp.passphrase false = .panicked ↔ P = [])) := by
  constructor
  · intro hnew
    rw [insert_success s kp name [] none hconf hnew]
    exact ⟨rfl, by simp [metaStr, alGet_alPut_self]⟩
  · intro P hfile
    simp only [get_credential, recover_private_key, hconf, hfile, decrypt, encrypt,
      and_self, if_true]
    cases hP : P with
    | nil => simp [linesRust]
    | cons c cs =>
      obtain ⟨l, ls, hl⟩ : ∃ l ls, linesRust (c :: cs) = l :: ls := by
        cases hcase : linesRust (c :: cs) with
        | nil => exact absurd hcase (linesRust_ne_nil _ (by simp))
        | cons a b => exact ⟨a, b, rfl⟩
      rw [hl]
      simp

theorem get_panic_iff_empty_witness :
    (⟨some ⟨'k', ['p']⟩, [], ⟨[], none, []⟩⟩ : Store).config = some ⟨'k', ['p']⟩ ∧
    ((alGet (⟨some ⟨'k', ['p']⟩, [], ⟨[], none, []⟩⟩ : Store).files ['n'] = none →
      (insert_credential ⟨some ⟨'k', ['p']⟩, [], ⟨[], none, []⟩⟩ ['n'] [] none).2 = .ok () ∧
      alGet (insert_credential ⟨some ⟨'k', ['p']⟩, [], ⟨[], none, []⟩⟩ ['n'] [] none).1.files
          ['n'] = some (encrypt [] 'k')) ∧
    (∀ P, alGet (⟨some ⟨'k', ['p']⟩, [], ⟨[], none, []⟩⟩ : Store).files ['n'] =
        some (encrypt P 'k') →
      (get_credential ⟨some ⟨'k', ['p']⟩, [], ⟨[], none, []⟩⟩ ['n'] ['p'] false = .panicked ↔
        P = []))) :=
  ⟨rfl, get_panic_iff_empty _ ⟨'k', ['p']⟩ ['n'] rfl⟩

/-- C10 counterexample to the claim as stated: inserting the empty secret
with no metadata succeeds, and `get(full = false)` on the result panics
rather than returning. -/
theorem get_empty_payload_panics_cex :
    (insert_credential ⟨some ⟨'k', ['p']⟩, [], ⟨[], none, []⟩⟩ ['n'] [] none).2 = .ok () ∧
    get_credential (insert_credential ⟨some ⟨'k', ['p']⟩, [], ⟨[], none, []⟩⟩ ['n'] [] none).1
      ['n'] ['p'] false = .panicked := by
  constructor
  · rfl
  · rfl

/-! ## Claim C7 -/

/-- C7: when the fetched remote tip equals the local `master` tip, fetch
returns success and mutates neither the local branch reference, nor `HEAD`,
nor the working tree (only the remote-tracking reference is refreshed by
the fetch itself). -/
theorem fetch_equal_tips_noop (s : SyncRepo) (u t : Str) (h : s.hasOrigin = true) :
    (fetch_from_remote s s.localMaster u t).2 = .ok () ∧
    (fetch_from_remote s s.localMaster u t).1.localMaster = s.localMaster ∧
    (fetch_from_remote s s.localMaster u t).1.headTarget = s.headTarget ∧
    (fetch_from_remote s s.localMaster u t).1.worktree = s.worktree ∧
    (fetch_from_remote s s.localMaster u t).1 =
      { s with remoteTracking := some s.localMaster } := by
  simp [fetch_from_remote, h]

theorem fetch_equal_tips_noop_witness :
    (⟨[⟨[], []⟩], 0, none, [], [], true, none⟩ : SyncRepo).hasOrigin = true ∧
    ((fetch_from_remote ⟨[⟨[], []⟩], 0, none, [], [], true, none⟩
        (⟨[⟨[], []⟩], 0, none, [], [], true, none⟩ : SyncRepo).localMaster [] []).2 = .ok () ∧
     (fetch_from_remote ⟨[⟨[], []⟩], 0, none, [], [], true, none⟩
        (⟨[⟨[], []⟩], 0, none, [], [], true, none⟩ : SyncRepo).localMaster [] []).1.localMaster =
       (⟨[⟨[], []⟩], 0, none, [], [], true, none⟩ : SyncRepo).localMaster ∧
     (fetch_from_remote ⟨[⟨[], []⟩], 0, none, [], [], true, none⟩
        (⟨[⟨[], []⟩], 0, none, [], [], true, none⟩ : SyncRepo).localMaster [] []).1.headTarget =
       (⟨[⟨[], []⟩], 0, none, [], [], true, none⟩ : SyncRepo).headTarget ∧
     (fetch_from_remote ⟨[⟨[], []⟩], 0, none, [], [], true, none⟩
        (⟨[⟨[], []⟩], 0, none, [], [], true, none⟩ : SyncRepo).localMaster [] []).1.worktree =
       (⟨[⟨[], []⟩], 0, none, [], [], true, none⟩ : SyncRepo).worktree ∧
     (fetch_from_remote ⟨[⟨[], []⟩], 0, none, [], [], true, none⟩
        (⟨[⟨[], []⟩], 0, none, [], [], true, none⟩ : SyncRepo).localMaster [] []).1 =
       { (⟨[⟨[], []⟩], 0, none, [], [], true, none⟩ : SyncRepo) with
          remoteTracking := some (⟨[⟨[], []⟩], 0, none, [], [], true,
            none⟩ : SyncRepo).localMaster }) :=
  ⟨rfl, fetch_equal_tips_noop _ [] [] rfl⟩

/-! ## Claim C8 -/

/-- C8: when the local tip is a strict ancestor of the fetched remote tip,
fetch fast-forwards: afterwards the local branch reference equals the
remote tip, `HEAD` points at `refs/heads/master`, and the working tree is
force-checked-out to exactly that commit's tree. -/
theorem fetch_fast_forward (s : SyncRepo) (rTip : Nat) (u t : Str)
    (horigin : s.hasOrigin = true)
    (hanc : isAncestor s.graph s.localMaster rTip = true)
    (hne : s.localMaster ≠ rTip) :
    (fetch_from_remote s rTip u t).2 = .ok () ∧
    (fetch_from_remote s rTip u t).1.localMaster = rTip ∧
    (fetch_from_remote s rTip u t).1.headTarget = "refs/heads/master".data ∧
    (fetch_from_remote s rTip u t).1.worktree = treeOf s.graph rTip := by
  have hup : isAncestor s.graph rTip s.localMaster = false := by
    cases hb : isAncestor s.graph rTip s.localMaster with
    | false => rfl
    | true =>
      exact absurd (Nat.le_antisymm (isAncestor_le _ _ _ hanc) (isAncestor_le _ _ _ hb)) hne
  simp [fetch_from_remote, horigin, hne, merge_analysis, hup, hanc]

theorem fetch_fast_forward_witness :
    (⟨[⟨[], []⟩, ⟨[0], [(['a'], ['b'])]⟩], 0, none, [], [], true, none⟩ : SyncRepo).hasOrigin =
      true ∧
    isAncestor (⟨[⟨[], []⟩, ⟨[0], [(['a'], ['b'])]⟩], 0, none, [], [], true,
      none⟩ : SyncRepo).graph 0 1 = true ∧
    (0 : Nat) ≠ 1 ∧
    ((fetch_from_remote ⟨[⟨[], []⟩, ⟨[0], [(['a'], ['b'])]⟩], 0, none, [], [], true, none⟩
        1 [] []).2 = .ok () ∧
     (fetch_from_remote ⟨[⟨[], []⟩, ⟨[0], [(['a'], ['b'])]⟩], 0, none, [], [], true, none⟩
        1 [] []).1.localMaster = 1 ∧
     (fetch_from_remote ⟨[⟨[], []⟩, ⟨[0], [(['a'], ['b'])]⟩], 0, none, [], [], true, none⟩
        1 [] []).1.headTarget = "refs/heads/master".data ∧
     (fetch_from_remote ⟨[⟨[], []⟩, ⟨[0], [(['a'], ['b'])]⟩], 0, none, [], [], true, none⟩
        1 [] []).1.worktree =
       treeOf (⟨[⟨[], []⟩, ⟨[0], [(['a'], ['b'])]⟩], 0, none, [], [], true,
         none⟩ : SyncRepo).graph 1) :=
  ⟨rfl, by decide, by decide,
    fetch_fast_forward _ 1 [] [] rfl (by decide) (by decide)⟩

/-! ## Claim C9 -/

/-- C9 (amended): when the local and remote tips have diverged, fetch
delegates to the underlying `repo.merge` and then returns plain success —
the error taxonomy has no distinct `MergeConflict`/`MergePerformed`
outcome — leaving the local branch reference unchanged. -/
theorem fetch_diverged_merge (s : SyncRepo) (rTip : Nat) (u t : Str)
    (horigin : s.hasOrigin = true)
    (h1 : isAncestor s.graph s.localMaster rTip = false)
    (h2 : isAncestor s.graph rTip s.localMaster = false) :
    (fetch_from_remote s rTip u t).2 = .ok () ∧
    (fetch_from_remote s rTip u t).1.mergedWith = some rTip ∧
    (fetch_from_remote s rTip u t).1.localMaster = s.localMaster := by
  have hne : s.localMaster ≠ rTip := by
    intro h
    rw [h, isAncestor_refl] at h1
    exact Bool.noConfusion h1
  simp [fetch_from_remote, horigin, hne, merge_analysis, h1, h2]

theorem fetch_diverged_merge_witness :
    (⟨[⟨[], []⟩, ⟨[0], []⟩, ⟨[0], []⟩], 1, none, [], [], true, none⟩ : SyncRepo).hasOrigin =
      true ∧
    isAncestor (⟨[⟨[], []⟩, ⟨[0], []⟩, ⟨[0], []⟩], 1, none, [], [], true,
      none⟩ : SyncRepo).graph 1 2 = false ∧
    isAncestor (⟨[⟨[], []⟩, ⟨[0], []⟩, ⟨[0], []⟩], 1, none, [], [], true,
      none⟩ : SyncRepo).graph 2 1 = false ∧
    ((fetch_from_remote ⟨[⟨[], []⟩, ⟨[0], []⟩, ⟨[0], []⟩], 1, none, [], [], true, none⟩
        2 [] []).2 = .ok () ∧
     (fetch_from_remote ⟨[⟨[], []⟩, ⟨[0], []⟩, ⟨[0], []⟩], 1, none, [], [], true, none⟩
        2 [] []).1.mergedWith = some 2 ∧
     (fetch_from_remote ⟨[⟨[], []⟩, ⟨[0], []⟩, ⟨[0], []⟩], 1, none, [], [], true, none⟩
        2 [] []).1.localMaster = 1) :=
  ⟨rfl, by decide, by decide,
    fetch_diverged_merge _ 2 [] [] rfl (by decide) (by decide)⟩

/-- C9 counterexample to the claim as stated: on diverged tips the call
returns plain success (`Ok(())`), not a distinct merge outcome. -/
theorem fetch_diverged_plain_success_cex :
    (fetch_from_remote ⟨[⟨[], []⟩, ⟨[0], []⟩, ⟨[0], []⟩], 1, none, [], [], true, none⟩
      2 [] []).2 = .ok () := by
  rfl

/-! ## Claim C1 -/

/-- The serialized payload splits back into the secret line followed by one
`key=value` line per metadata pair, provided none of them smuggles a line
terminator: the secret and each value contain no `\n` and do not end in
`\r`, each key contains no `\n`, and the payload is non-empty. -/
theorem linesRust_payload : ∀ (md : List (Str × Str)) (sec : Str),
    '\n' ∉ sec → sec.getLast? ≠ some '\r' →
    (∀ p ∈ md, '\n' ∉ p.1 ∧ '\n' ∉ p.2 ∧ p.2.getLast? ≠ some '\r') →
    ¬(sec = [] ∧ md = []) →
    linesRust (sec ++ metaStr md) = sec :: md.map (fun p => p.1 ++ '=' :: p.2)
  | [], sec, hnl, _, _, hne => by
    have hsec : sec ≠ [] := fun h => hne ⟨h, rfl⟩
    simp [metaStr, linesRust_single sec hnl hsec]
  | (k, v) :: tl, sec, hnl, hcr, hmd, _ => by
    have hkv := hmd (k, v) (List.mem_cons_self _ _)
    have hline_nl : '\n' ∉ (k ++ '=' :: v) := by
      intro hm
      rcases List.mem_append.mp hm with hk | hv
      · exact hkv.1 hk
      · rcases List.mem_cons.mp hv with he | hv'
        · exact absurd he (by decide)
        · exact hkv.2.1 hv'
    have hline_cr : (k ++ '=' :: v).getLast? ≠ some '\r' := by
      cases v with
      | nil =>
        rw [List.getLast?_append_of_ne_nil _ (by simp)]
        simp
      | cons x xs =>
        rw [List.getLast?_append_of_ne_nil _ (by simp), List.getLast?_cons_cons]
        exact hkv.2.2
    have hmd' : ∀ p ∈ tl, '\n' ∉ p.1 ∧ '\n' ∉ p.2 ∧ p.2.getLast? ≠ some '\r' :=
      fun p hp => hmd p (List.mem_cons_of_mem _ hp)
    have hne' : ¬((k ++ '=' :: v) = [] ∧ tl = []) := by
      rintro ⟨habs, -⟩
      cases k <;> simp at habs
    have step : sec ++ metaStr ((k, v) :: tl) =
        sec ++ '\n' :: ((k ++ '=' :: v) ++ metaStr tl) := rfl
    rw [step, linesRust_append_nl sec _ hnl hcr,
      linesRust_payload tl (k ++ '=' :: v) hline_nl hline_cr hmd' hne']
    simp

/-- C1 (amended): for a fresh name, a secret and metadata free of line
terminators (no `\n` anywhere, no trailing `\r` in the secret or a value)
and a non-empty payload, `insert` then `get(full = true)` returns a payload
whose first line is the secret and whose remaining lines contain the line
`key=value` for every metadata pair. -/
theorem insert_get_roundtrip (s : Store) (kp : KeyPair) (name sec : Str)
    (md : List (Str × Str))
    (hconf : s.config = some kp)
    (hnew : alGet s.files name = none)
    (hsec_nl : '\n' ∉ sec) (hsec_cr : sec.getLast? ≠ some '\r')
    (hmd : ∀ p ∈ md, '\n' ∉ p.1 ∧ '\n' ∉ p.2 ∧ p.2.getLast? ≠ some '\r')
    (hne : ¬(sec = [] ∧ md = [])) :
    (insert_credential s name sec (some md)).2 = .ok () ∧
    get_credential (insert_credential s name sec (some md)).1 name kp.passphrase true =
      .ok (sec ++ metaStr md) ∧
    (linesRust (sec ++ metaStr md)).head? = some sec ∧
    ∀ p ∈ md, (p.1 ++ '=' :: p.2) ∈ (linesRust (sec ++ metaStr md)).tail := by
  rw [insert_success s kp name sec (some md) hconf hnew]
  have hlines := linesRust_payload md sec hsec_nl hsec_cr hmd hne
  refine ⟨rfl, ?_, ?_, ?_⟩
  · simp only [get_credential, recover_private_key, hconf, Option.getD_some,
      alGet_alPut_self, decrypt, encrypt, and_self, if_true]
  · rw [hlines]
    rfl
  · rw [hlines]
    intro p hp
    rw [List.tail_cons]
    exact List.mem_map_of_mem _ hp

theorem insert_get_roundtrip_witness :
    (⟨some ⟨'k', ['p']⟩, [], ⟨[], none, []⟩⟩ : Store).config = some ⟨'k', ['p']⟩ ∧
    alGet (⟨some ⟨'k', ['p']⟩, [], ⟨[], none, []⟩⟩ : Store).files ['n'] = none ∧
    '\n' ∉ (['s'] : Str) ∧
    (['s'] : Str).getLast? ≠ some '\r' ∧
    (∀ p ∈ [((['a'], ['b']) : Str × Str)],
      '\n' ∉ p.1 ∧ '\n' ∉ p.2 ∧ p.2.getLast? ≠ some '\r') ∧
    ¬((['s'] : Str) = [] ∧ ([((['a'], ['b']) : Str × Str)]) = []) ∧
    ((insert_credential ⟨some ⟨'k', ['p']⟩, [], ⟨[], none, []⟩⟩ ['n'] ['s']
        (some [(['a'], ['b'])])).2 = .ok () ∧
     get_credential (insert_credential ⟨some ⟨'k', ['p']⟩, [], ⟨[], none, []⟩⟩ ['n'] ['s']
        (some [(['a'], ['b'])])).1 ['n'] ['p'] true =
       .ok (['s'] ++ metaStr [(['a'], ['b'])]) ∧
     (linesRust (['s'] ++ metaStr [(['a'], ['b'])])).head? = some ['s'] ∧
     ∀ p ∈ [((['a'], ['b']) : Str × Str)],
       (p.1 ++ '=' :: p.2) ∈ (linesRust (['s'] ++ metaStr [(['a'], ['b'])])).tail) :=
  ⟨rfl, rfl, by decide, by decide, by decide, by decide,
    insert_get_roundtrip _ ⟨'k', ['p']⟩ ['n'] ['s'] [(['a'], ['b'])] rfl rfl
      (by decide) (by decide) (by decide) (by decide)⟩

/-- C1 counterexample to the claim as stated: for the secret `a\nb`
(a secret containing a newline — the claim quantifies over every secret
string), insert succeeds and a full get returns the payload, but the
payload's first line is `a`, not the secret. -/
theorem insert_get_newline_secret_cex :
    (insert_credential ⟨some ⟨'k', ['p']⟩, [], ⟨[], none, []⟩⟩ ['n']
        ['a', '\n', 'b'] (some [])).2 = .ok () ∧
    get_credential (insert_credential ⟨some ⟨'k', ['p']⟩, [], ⟨[], none, []⟩⟩ ['n']
        ['a', '\n', 'b'] (some [])).1 ['n'] ['p'] true = .ok ['a', '\n', 'b'] ∧
    (linesRust ['a', '\n', 'b']).head? = some ['a'] ∧
    some (['a'] : Str) ≠ some ['a', '\n', 'b'] :=
  ⟨rfl, rfl, by decide, by decide⟩

/-! ## Claim C4 -/

/-- The value the last requested change assigns to key `k`: `some (some v)`
for a final set, `some none` for a final delete, `none` when `k` is never
touched. -/
def lastChange : List (Str × Option Str) → Str → Option (Option Str)
  | [], _ => none
  | item :: t, k =>
    match lastChange t k with
    | some r => some r
    | none => if item.1 = k then some item.2 else none

/-- The value assigned to key `k` by the last payload line parsing to that
key (later duplicate keys overwrite earlier ones), `none` when no line
parses to `k`. -/
def lastParsed : List Str → Str → Option Str
  | [], _ => none
  | l :: t, k =>
    match lastParsed t k with
    | some v => some v
    | none =>
      match eqSplit l with
      | some kv => if kv.1 = k then some kv.2 else none
      | none => none

theorem lastChange_cons (item : Str × Option Str) (t : List (Str × Option Str)) (k : Str) :
    lastChange (item :: t) k =
      match lastChange t k with
      | some r => some r
      | none => if item.1 = k then some item.2 else none := rfl

theorem lastParsed_cons (l : Str) (t : List Str) (k : Str) :
    lastParsed (l :: t) k =
      match lastParsed t k with
      | some v => some v
      | none =>
        match eqSplit l with
        | some kv => if kv.1 = k then some kv.2 else none
        | none => none := rfl

/-- The metadata map collected by `edit_credential`'s
`lines().filter_map(..).collect::<HashMap<_, _>>()` fold maps `k` to the
last `=`-line assigning it. -/
theorem alGet_parse_fold : ∀ (ls : List Str) (m : Dict) (k : Str),
    alGet (ls.foldl (fun m line =>
      match eqSplit line with
      | some (k, v) => alPut m k v
      | none => m) m) k =
    match lastParsed ls k with
    | some v => some v
    | none => alGet m k
  | [], m, k => rfl
  | l :: t, m, k => by
    rw [List.foldl_cons, alGet_parse_fold t _ k, lastParsed_cons]
    cases hp : lastParsed t k with
    | some v => rfl
    | none =>
      cases he : eqSplit l with
      | none => rfl
      | some kv =>
        obtain ⟨k', v'⟩ := kv
        by_cases hk : k' = k
        · subst hk
          simp [alGet_alPut_self]
        · simp [alGet_alPut_ne _ _ _ _ hk, hk]

/-- The change-application fold of `edit_credential` maps `k` to the last
requested change when there is one, and to the original entry otherwise. -/
theorem alGet_changes_fold : ∀ (ms : List (Str × Option Str)) (d : Dict) (k : Str),
    alGet (ms.foldl (fun d item =>
      match item.2 with
      | some inner_value => alPut d item.1 inner_value
      | none => alDel d item.1) d) k =
    match lastChange ms k with
    | some (some v) => some v
    | some none => none
    | none => alGet d k
  | [], d, k => rfl
  | item :: t, d, k => by
    rw [List.foldl_cons, alGet_changes_fold t _ k, lastChange_cons]
    cases hp : lastChange t k with
    | some r => cases r <;> rfl
    | none =>
      obtain ⟨k', v?⟩ := item
      by_cases hk : k' = k
      · subst hk
        cases v? with
        | some v => simp [alGet_alPut_self]
        | none => simp [alGet_alDel_self]
      · cases v? with
        | some v => simp [alGet_alPut_ne _ _ _ _ hk, hk]
        | none => simp [alGet_alDel_ne _ _ _ hk, hk]

/-- C4 (amended): a successful `edit` keeps the existing first line as the
secret when no new secret is given (and uses the given one otherwise), and
produces a metadata mapping obtained by parsing every `=`-containing line
of the payload — including the first (secret) line when it contains `=` —
with later duplicate keys overwriting earlier ones, then applying the
requested changes: a pair with a present value sets/overwrites that key, a
pair with an absent value deletes it. -/
theorem edit_core_mapping (P : Str) (pw : Option Str) (ms : List (Str × Option Str))
    (hfl : pw = none → linesRust P ≠ []) :
    ∃ sec d, edit_core P pw (some ms) = some (sec, d) ∧
      (pw = none → (linesRust P).head? = some sec) ∧
      (∀ x, pw = some x → sec = x) ∧
      (∀ k, alGet d k =
        match lastChange ms k with
        | some (some v) => some v
        | some none => none
        | none => lastParsed (linesRust P) k) := by
  cases pw with
  | some x =>
    refine ⟨x, _, rfl, ?_, ?_, ?_⟩
    · intro h
      exact Option.noConfusion h
    · intro y hy
      injection hy
    · intro k
      rw [alGet_changes_fold, alGet_parse_fold]
      cases hc : lastChange ms k with
      | some r => cases r <;> rfl
      | none => cases hp : lastParsed (linesRust P) k <;> rfl
  | none =>
    have hne := hfl rfl
    obtain ⟨l, ls, hl⟩ : ∃ l ls, linesRust P = l :: ls := by
      cases hcase : linesRust P with
      | nil => exact absurd hcase hne
      | cons a b => exact ⟨a, b, rfl⟩
    refine ⟨l, ms.foldl
        (fun d item =>
          match item.2 with
          | some inner_value => alPut d item.1 inner_value
          | none => alDel d item.1)
        ((l :: ls).foldl
          (fun m line =>
            match eqSplit line with
            | some (k, v) => alPut m k v
            | none => m) []), ?_, ?_, ?_, ?_⟩
    · unfold edit_core
      rw [hl]
      rfl
    · intro _
      rw [hl]
      rfl
    · intro y hy
      exact Option.noConfusion hy
    · intro k
      rw [hl, alGet_changes_fold, alGet_parse_fold]
      cases hc : lastChange ms k with
      | some r => cases r <;> rfl
      | none => cases hp : lastParsed (l :: ls) k <;> rfl

theorem edit_core_mapping_witness :
    ((none : Option Str) = none → linesRust ['s', '\n', 'a', '=', 'b'] ≠ []) ∧
    (∃ sec d, edit_core ['s', '\n', 'a', '=', 'b'] none
        (some [(['a'], none), (['c'], some ['d'])]) = some (sec, d) ∧
      ((none : Option Str) = none →
        (linesRust ['s', '\n', 'a', '=', 'b']).head? = some sec) ∧
      (∀ x, (none : Option Str) = some x → sec = x) ∧
      (∀ k, alGet d k =
        match lastChange [(['a'], none), (['c'], some ['d'])] k with
        | some (some v) => some v
        | some none => none
        | none => lastParsed (linesRust ['s', '\n', 'a', '=', 'b']) k)) :=
  ⟨by decide, edit_core_mapping ['s', '\n', 'a', '=', 'b'] none
    [(['a'], none), (['c'], some ['d'])] (by decide)⟩

/-- C4 counterexample to the claim as stated: the parser consumes every
line of the payload, not only the lines after the first.  For the payload
`a=b` (a secret containing `=`, no metadata lines, no requested changes)
the resulting mapping contains the pair `(a, b)` taken from the secret
line, while parsing only the lines after the first yields no entry for
`a`. -/
theorem edit_parses_first_line_cex :
    edit_core ['a', '=', 'b'] none none = some (['a', '=', 'b'], [(['a'], ['b'])]) ∧
    lastParsed ((linesRust ['a', '=', 'b']).tail) ['a'] = none :=
  ⟨by decide, by decide⟩

/-! ## Claim C5 -/

theorem edit_success (s : Store) (kp : KeyPair) (name : Str) (pw : Option Str)
    (ms : Option (List (Str × Option Str))) (old cred sec : Str) (d : List (Str × Str))
    (hconf : s.config = some kp)
    (hold : alGet s.files name = some old)
    (hdec : decrypt old kp.passphrase kp = .ok cred)
    (hcore : edit_core cred pw ms = some (sec, d)) :
    (edit_credential s name kp.passphrase pw ms).2 = .ok () ∧
    (edit_credential s name kp.passphrase pw ms).1.files =
      alPut s.files name
        (encrypt (sec ++ metaStr d) kp.keyId ++
          old.drop (encrypt (sec ++ metaStr d) kp.keyId).length) := by
  have hstage : stageAdditions s.repo.index
      (alPut s.files name
        (encrypt (sec ++ metaStr d) kp.keyId ++
          old.drop (encrypt (sec ++ metaStr d) kp.keyId).length)) [name] =
      some (alPut s.repo.index name
        (encrypt (sec ++ metaStr d) kp.keyId ++
          old.drop (encrypt (sec ++ metaStr d) kp.keyId).length)) := by
    simp [stageAdditions, alGet_alPut_self]
  simp only [edit_credential, hold, recover_rsa_pub_key, recover_private_key, hconf,
    hdec, hcore, commitStep, commit_changes, Option.getD_some, Option.getD_none]
  rw [hstage]
  exact ⟨rfl, rfl⟩

/-- C5 (amended): after a successful `edit`, the file contains the new
ciphertext followed by the old content's bytes beyond the new length
(`seek(Start(0))` then `write_all` without truncation); the file equals
exactly the new ciphertext only when the new one is at least as long as the
old content. -/
theorem edit_file_after_write (s : Store) (kp : KeyPair) (name : Str) (pw : Option Str)
    (ms : Option (List (Str × Option Str))) (old cred sec : Str) (d : List (Str × Str))
    (hconf : s.config = some kp)
    (hold : alGet s.files name = some old)
    (hdec : decrypt old kp.passphrase kp = .ok cred)
    (hcore : edit_core cred pw ms = some (sec, d)) :
    (edit_credential s name kp.passphrase pw ms).2 = .ok () ∧
    alGet (edit_credential s name kp.passphrase pw ms).1.files name =
      some (encrypt (sec ++ metaStr d) kp.keyId ++
        old.drop (encrypt (sec ++ metaStr d) kp.keyId).length) ∧
    (old.length ≤ (encrypt (sec ++ metaStr d) kp.keyId).length →
      alGet (edit_credential s name kp.passphrase pw ms).1.files name =
        some (encrypt (sec ++ metaStr d) kp.keyId)) := by
  obtain ⟨h2, hfiles⟩ := edit_success s kp name pw ms old cred sec d hconf hold hdec hcore
  refine ⟨h2, ?_, ?_⟩
  · rw [hfiles, alGet_alPut_self]
  · intro hlen
    rw [hfiles, alGet_alPut_self, List.drop_eq_nil_of_le hlen, List.append_nil]

theorem edit_file_after_write_witness :
    (⟨some ⟨'k', ['p']⟩, [(['n'], ['k', 'a', 'b', '\n', 'c', '=', 'd'])],
        ⟨[], none, []⟩⟩ : Store).config = some ⟨'k', ['p']⟩ ∧
    alGet (⟨some ⟨'k', ['p']⟩, [(['n'], ['k', 'a', 'b', '\n', 'c', '=', 'd'])],
        ⟨[], none, []⟩⟩ : Store).files ['n'] = some ['k', 'a', 'b', '\n', 'c', '=', 'd'] ∧
    decrypt ['k', 'a', 'b', '\n', 'c', '=', 'd'] ['p'] ⟨'k', ['p']⟩ =
      Except.ok ['a', 'b', '\n', 'c', '=', 'd'] ∧
    edit_core ['a', 'b', '\n', 'c', '=', 'd'] (some ['x']) (some [(['c'], none)]) =
      some (['x'], []) ∧
    ((edit_credential ⟨some ⟨'k', ['p']⟩, [(['n'], ['k', 'a', 'b', '\n', 'c', '=', 'd'])],
        ⟨[], none, []⟩⟩ ['n'] ['p'] (some ['x']) (some [(['c'], none)])).2 = .ok () ∧
     alGet (edit_credential ⟨some ⟨'k', ['p']⟩, [(['n'], ['k', 'a', 'b', '\n', 'c', '=', 'd'])],
        ⟨[], none, []⟩⟩ ['n'] ['p'] (some ['x']) (some [(['c'], none)])).1.files ['n'] =
       some (encrypt (['x'] ++ metaStr []) 'k' ++
         (['k', 'a', 'b', '\n', 'c', '=', 'd'] : Str).drop
           (encrypt (['x'] ++ metaStr []) 'k').length) ∧
     ((['k', 'a', 'b', '\n', 'c', '=', 'd'] : Str).length ≤
        (encrypt (['x'] ++ metaStr []) 'k').length →
       alGet (edit_credential ⟨some ⟨'k', ['p']⟩,
          [(['n'], ['k', 'a', 'b', '\n', 'c', '=', 'd'])], ⟨[], none, []⟩⟩
          ['n'] ['p'] (some ['x']) (some [(['c'], none)])).1.files ['n'] =
         some (encrypt (['x'] ++ metaStr []) 'k'))) :=
  ⟨rfl, rfl, rfl, by decide,
    edit_file_after_write _ ⟨'k', ['p']⟩ ['n'] (some ['x']) (some [(['c'], none)])
      ['k', 'a', 'b', '\n', 'c', '=', 'd'] ['a', 'b', '\n', 'c', '=', 'd'] ['x'] []
      rfl rfl rfl (by decide)⟩

/-- C5 counterexample to the claim as stated: editing a credential down to
a shorter payload leaves the old ciphertext's trailing bytes in the file —
the file content is not exactly the newly produced ciphertext. -/
theorem edit_stale_bytes_cex :
    (edit_credential ⟨some ⟨'k', ['p']⟩, [(['n'], ['k', 'a', 'b', '\n', 'c', '=', 'd'])],
        ⟨[], none, []⟩⟩ ['n'] ['p'] (some ['x']) (some [(['c'], none)])).2 = .ok () ∧
    alGet (edit_credential ⟨some ⟨'k', ['p']⟩, [(['n'], ['k', 'a', 'b', '\n', 'c', '=', 'd'])],
        ⟨[], none, []⟩⟩ ['n'] ['p'] (some ['x']) (some [(['c'], none)])).1.files ['n'] =
      some ['k', 'x', 'b', '\n', 'c', '=', 'd'] ∧
    (['k', 'x', 'b', '\n', 'c', '=', 'd'] : Str) ≠ encrypt (['x'] ++ metaStr []) 'k' :=
  ⟨rfl, by decide, by decide⟩
